import Mathlib

/-!
Verification development for the vault-steward plugin.

Strings from the TypeScript source are modelled as `List Char`; JavaScript
numbers (confidences, thresholds) are modelled as `ℚ`.  Each definition in
this file is a shallow embedding of the correspondingly named function of
the source (`src/services/changelog-service.ts` — which also contains the
`VaultOperations` text-patch engine —, `src/engines/linking-engine.ts`,
`src/engines/tagging-engine.ts`, `src/services/claude-service.ts`).
-/

/-- Convert a Lean string literal to the `List Char` representation. -/
def chars (s : String) : List Char := s.data

/-- JavaScript `String.prototype.toLowerCase`, restricted to ASCII (the
only case mapping exercised by the source).  `Char.toLower` lowers exactly
the ASCII letters `A`–`Z`. -/
def lowerStr (s : List Char) : List Char := s.map Char.toLower

/-- Index of the first occurrence of `needle` in `hay`
(`String.prototype.indexOf` without the `-1` encoding).  An empty needle
occurs at index 0, as in JavaScript. -/
def firstIdx (needle : List Char) : List Char → Option Nat
  | [] => if needle.isPrefixOf [] then some 0 else none
  | c :: t =>
    if needle.isPrefixOf (c :: t) then some 0
    else (firstIdx needle t).map (· + 1)

/-- JavaScript `String.prototype.includes hay.includes(needle)`. -/
def includesStr (hay needle : List Char) : Bool := (firstIdx needle hay).isSome

/-- JavaScript `hay.indexOf(needle)` with the `-1` convention, as used by the
sort comparator of `VaultOperations.applyLinks`. -/
def idxOr (needle hay : List Char) : Int :=
  match firstIdx needle hay with
  | some i => (i : Int)
  | none => -1

/-- First index of a case-insensitive occurrence of `needle`
(the `new RegExp(escapeRegex(text), 'gi')` search of the source: the escape
makes the pattern a literal, so the search is a plain case-insensitive
substring search). -/
def ciFirstIdx (needle hay : List Char) : Option Nat :=
  firstIdx (lowerStr needle) (lowerStr hay)

/-- `p.isPrefixOf (hay.drop i)` — pattern `p` occurs literally at index `i`. -/
def litAt (hay : List Char) (i : Nat) (p : List Char) : Bool :=
  p.isPrefixOf (hay.drop i)

/-- Case-insensitive occurrence of `p` at index `i`. -/
def ciAt (hay : List Char) (i : Nat) (p : List Char) : Bool :=
  (lowerStr p).isPrefixOf (lowerStr (hay.drop i))

/-- The characters of `hay` in the half-open range `[a, b)` are all
different from `']'` (the `[^\]]*` pieces of the wiki-link regexes). -/
def noRBrack (hay : List Char) (a b : Nat) : Bool :=
  ((hay.drop a).take (b - a)).all (fun c => c ≠ ']')

/-- `VaultOperations.applyLinks`'s second skip test: the regex
`\[\[[^\]]*T[^\]]*\]\]` (flag `i`, `T` the escaped target text) matches
somewhere in `hay`.  A match is a decomposition `[[`, a run of non-`]`
characters, the target text case-insensitively, another run of non-`]`
characters, and `]]`. -/
def insideLinkTest (tt hay : List Char) : Bool :=
  (List.range (hay.length + 1)).any fun i =>
    litAt hay i (chars "[[") &&
    ((List.range (hay.length + 1)).any fun j =>
      decide (i + 2 ≤ j) && noRBrack hay (i + 2) j && ciAt hay j tt &&
      ((List.range (hay.length + 1)).any fun m =>
        decide (j + tt.length ≤ m) && noRBrack hay (j + tt.length) m &&
        litAt hay m (chars "]]")))

/-- `SuggestedLink` of `src/types` -/
structure SuggestedLink where
  targetText : List Char
  linkTarget : List Char
  reasoning : List Char
  confidence : ℚ
  deriving DecidableEq, Repr

/-- The body of the `for` loop of `VaultOperations.applyLinks`: process one
suggestion against the current `result` text. -/
def applyOne (result : List Char) (l : SuggestedLink) : List Char :=
  -- skip if target note is already linked anywhere in the document
  if includesStr result (chars "[[" ++ l.linkTarget ++ chars "]]") ||
     includesStr result (chars "[[" ++ l.linkTarget ++ chars "|") then result
  -- skip if the target text is already inside a wiki-link
  else if insideLinkTest l.targetText result then result
  else
    match ciFirstIdx l.targetText result with
    | none => result
    | some i =>
      let m0 := (result.drop i).take l.targetText.length
      let displayText :=
        if lowerStr m0 = lowerStr l.linkTarget
        then l.linkTarget
        else l.linkTarget ++ '|' :: m0
      result.take i ++ chars "[[" ++ displayText ++ chars "]]" ++
        result.drop (i + l.targetText.length)

/-- Stable insertion (descending keys) used to model `Array.prototype.sort`
with the comparator `(a, b) => posB - posA` of `applyLinks`. -/
def insertDesc (x : SuggestedLink × Int) :
    List (SuggestedLink × Int) → List (SuggestedLink × Int)
  | [] => [x]
  | y :: ys => if y.2 ≤ x.2 then x :: y :: ys else y :: insertDesc x ys

/-- The `[...links].sort(...)` step of `applyLinks`: sort by the first
case-insensitive occurrence position in `content`, latest position first
(position `-1` for absent target texts sorts last). -/
def sortLinks (content : List Char) (links : List SuggestedLink) :
    List SuggestedLink :=
  ((links.map fun l =>
      (l, idxOr (lowerStr l.targetText) (lowerStr content))).foldr
    insertDesc []).map (·.1)

/-- `VaultOperations.applyLinks` -/
def applyLinks (content : List Char) (links : List SuggestedLink) :
    List Char :=
  (sortLinks content links).foldl applyOne content

/-! ## Suggestion filter: `LinkingEngine.filterLinks` -/

/-- The wiki-link spans of a text: the successive non-overlapping matches of
the global regex `\[\[([^\]]+)\]\]` used by `filterLinks`'s inside-a-link
check.  Each returned span is the full match including the brackets
(`match[0]` in the source). -/
def findSpansF : Nat → List Char → List (List Char)
  | 0, _ => []
  | _, [] => []
  | f + 1, c :: rest =>
    if litAt (c :: rest) 0 (chars "[[") then
      let r := ((c :: rest).drop 2).takeWhile (fun ch => ch ≠ ']')
      if r.length > 0 && litAt (c :: rest) (2 + r.length) (chars "]]") then
        (chars "[[" ++ r ++ chars "]]") ::
          findSpansF f ((c :: rest).drop (2 + r.length + 2))
      else findSpansF f rest
    else findSpansF f rest

/-- Wrapper supplying enough fuel (every recursive step of `findSpansF`
consumes at least one character). -/
def findSpans (s : List Char) : List (List Char) :=
  findSpansF (s.length + 1) s

/-- The `VaultContext` handed to the engines
(`VaultOperations.getVaultContext`). -/
structure VaultContext where
  existingNotes : List (List Char)
  existingTags : List (List Char)
  predefinedTags : List (List Char)
  whitelistWords : List (List Char)
  blacklistWords : List (List Char)
  deriving DecidableEq, Repr

/-- The per-suggestion acceptance test of `LinkingEngine.filterLinks`
(`threshold` is the engine's `confidenceThreshold` field); the nested `if`s
mirror the loop's `continue` chain. -/
def acceptLink (threshold : ℚ) (content : List Char)
    (existingNotes : List (List Char)) (l : SuggestedLink) : Bool :=
  if l.confidence < threshold then false
  else if ¬ existingNotes.contains l.linkTarget then false
  else if includesStr content (chars "[[" ++ l.linkTarget ++ chars "]]") then false
  else if ¬ includesStr (lowerStr content) (lowerStr l.targetText) then false
  else if (findSpans content).any
      (fun sp => includesStr (lowerStr sp) (lowerStr l.targetText)) then false
  else true

/-- `LinkingEngine.filterLinks`: partition the suggestions into
`(toApply, toSkip)`, preserving order. -/
def filterLinks (threshold : ℚ) (links : List SuggestedLink)
    (content : List Char) (existingNotes : List (List Char)) :
    List SuggestedLink × List SuggestedLink :=
  match links with
  | [] => ([], [])
  | l :: ls =>
    let rest := filterLinks threshold ls content existingNotes
    if acceptLink threshold content existingNotes l
    then (l :: rest.1, rest.2)
    else (rest.1, l :: rest.2)

/-! ## Frontmatter helpers (shared by `VaultOperations` and the engines) -/

/-- JavaScript whitespace class `\s` membership, for the characters that can
occur in the modelled texts. -/
def isJsWs (c : Char) : Bool :=
  c = ' ' || c = '\t' || c = '\n' || c = '\r' || c = '\x0b' || c = '\x0c'

/-- The frontmatter block match (regex `^---` + `\n` + lazy `[\s\S]*?` group
+ `\n---`, anchored at the string start): if the text starts with `---` and
a newline, the group is everything up to the first following newline + `---`.
Returns the group and the text after the whole match. -/
def fmBlock (s : List Char) : Option (List Char × List Char) :=
  if litAt s 0 (chars "---\n") then
    match firstIdx (chars "\n---") (s.drop 4) with
    | some k => some ((s.drop 4).take k, s.drop (4 + k + 4))
    | none => none
  else none

/-- Index of the first occurrence of `needle` at a line start (the `^…/m`
anchor): position 0 or a position immediately after a `'\n'`. -/
def lineStartIdx (needle : List Char) (s : List Char) : Option Nat :=
  go s 0 true
where
  go : List Char → Nat → Bool → Option Nat
  | [], _, _ => none
  | c :: t, i, atStart =>
    if atStart && needle.isPrefixOf (c :: t) then some i
    else go t (i + 1) (c = '\n')

/-- The captured value of the frontmatter `tags:` line, per the regexes
`/^tags:\s*(\[.*?\]|.*?)$/m` and `/^tags:\s*(.*)$/m` of the source:
after the first line-initial `tags:`, greedy `\s*` (which may cross line
breaks), then the rest of that line.  (With the trailing `$`, both the
bracketed and the lazy alternative capture exactly the rest of the line.) -/
def tagsLineValue (fm : List Char) : Option (List Char) :=
  match lineStartIdx (chars "tags:") fm with
  | none => none
  | some i =>
    some (((fm.drop (i + 5)).dropWhile isJsWs).takeWhile (fun c => c ≠ '\n'))

/-- JavaScript `String.prototype.trim`. -/
def jsTrim (s : List Char) : List Char :=
  ((s.dropWhile isJsWs).reverse.dropWhile isJsWs).reverse

/-- JavaScript `String.prototype.trimEnd`. -/
def jsTrimEnd (s : List Char) : List Char :=
  (s.reverse.dropWhile isJsWs).reverse

/-- Split a list at every occurrence of the separator character
(JavaScript `String.prototype.split(',')`). -/
def splitOn (sep : Char) (s : List Char) : List (List Char) :=
  match s with
  | [] => [[]]
  | c :: t =>
    let rest := splitOn sep t
    if c = sep then [] :: rest
    else
      match rest with
      | [] => [[c]]
      | r :: rs => (c :: r) :: rs

/-- `VaultOperations.parseFrontmatterTags`. -/
def parseFrontmatterTags (value : List Char) : List (List Char) :=
  if value.head? = some '[' then
    ((splitOn ',' ((value.drop 1).dropLast)).map jsTrim).filter
      (fun t => t.length > 0)
  else
    ([jsTrim value]).filter (fun t => t.length > 0)

/-- `TaggingEngine.isTagInFrontmatter`. -/
def isTagInFrontmatter (content : List Char) (tagWithoutHash : List Char) :
    Bool :=
  match fmBlock content with
  | none => false
  | some (fm, _) =>
    match tagsLineValue fm with
    | none => false
    | some v => includesStr (lowerStr v) (lowerStr tagWithoutHash)

/-! ## Suggestion filter: `TaggingEngine.filterTags` -/

/-- Location of a suggested tag (`'frontmatter' | 'inline'`). -/
inductive TagLoc where
  | frontmatter
  | inline_
  deriving DecidableEq, Repr

/-- `SuggestedTag` of `src/types` -/
structure SuggestedTag where
  tag : List Char
  location : TagLoc
  reasoning : List Char
  confidence : ℚ
  deriving DecidableEq, Repr

/-- The `#`-normalised form used by `filterTags`
(`tag.tag.startsWith('#') ? tag.tag : '#' + tag.tag`). -/
def normTag (t : List Char) : List Char :=
  match t with
  | '#' :: _ => t
  | _ => '#' :: t

/-- The per-suggestion acceptance test of `TaggingEngine.filterTags`
(`threshold` and `allowNewTags` are engine fields). -/
def acceptTag (threshold : ℚ) (allowNewTags : Bool) (ctx : VaultContext)
    (content : List Char) (tag : SuggestedTag) : Bool :=
  let n := normTag tag.tag
  if tag.confidence < threshold then false
  else if includesStr content n then false
  else if isTagInFrontmatter content (n.drop 1) then false
  else if ctx.blacklistWords.any
      (fun w => includesStr (lowerStr n) (lowerStr w)) then false
  else if ¬ allowNewTags &&
      ¬ (ctx.existingTags.contains n ||
         ctx.predefinedTags.any (fun p =>
           lowerStr p = lowerStr n || lowerStr p = lowerStr (n.drop 1)))
    then false
  else true

/-- `TaggingEngine.filterTags`: partition into `(toApply, toSkip)`. -/
def filterTags (threshold : ℚ) (allowNewTags : Bool) (ctx : VaultContext)
    (tags : List SuggestedTag) (content : List Char) :
    List SuggestedTag × List SuggestedTag :=
  match tags with
  | [] => ([], [])
  | t :: ts =>
    let rest := filterTags threshold allowNewTags ctx ts content
    if acceptTag threshold allowNewTags ctx content t
    then (t :: rest.1, rest.2)
    else (rest.1, t :: rest.2)

/-! ## Text patch engine: `VaultOperations.applyTags` -/

/-- Characters allowed after the leading letter of an inline tag
(the character class of the inline tag regex: letters, digits, underscore,
slash, hyphen). -/
def allowedTagChar (c : Char) : Bool :=
  c.isAlpha || c.isDigit || c = '_' || c = '/' || c = '-'

/-- Try to match `#` + letter + run of allowed characters at the head of the
list; on success return the captured tag name and the remaining text. -/
def startHash : List Char → Option (List Char × List Char)
  | c :: d :: r =>
    if c = '#' && d.isAlpha then
      some (d :: r.takeWhile allowedTagChar, r.dropWhile allowedTagChar)
    else none
  | _ => none

/-- A successful `startHash` consumes at least the `#` and the letter. -/
theorem startHash_len {s : List Char} {nr : List Char × List Char}
    (h : startHash s = some nr) : nr.2.length < s.length := by
  cases s with
  | nil => simp [startHash] at h
  | cons c t =>
    cases t with
    | nil => simp [startHash] at h
    | cons d r =>
      simp only [startHash] at h
      split at h
      · injection h with h'
        subst h'
        have : (r.dropWhile allowedTagChar).length ≤ r.length :=
          (List.dropWhile_sublist _).length_le
        simp only [List.length_cons]
        omega
      · exact absurd h (by simp)

/-- The inline-tag scan of `VaultOperations.extractExistingTags`: the
successive matches of the global regex `(?:^|[\s])` + `#` + a letter + a run
of allowed tag characters, collecting the captured names.  `atStart` tracks whether the `^` alternative
is still available (it matches only at the very start of the string, the
regex having no `m` flag). -/
def scanInlineF : Nat → Bool → List Char → List (List Char)
  | 0, _, _ => []
  | _, _, [] => []
  | f + 1, atStart, c :: rest =>
    match (if atStart then startHash (c :: rest) else none) with
    | some nr => nr.1 :: scanInlineF f false nr.2
    | none =>
      if isJsWs c then
        match startHash rest with
        | some nr => nr.1 :: scanInlineF f false nr.2
        | none => scanInlineF f false rest
      else scanInlineF f false rest

/-- Wrapper supplying enough fuel (every recursive step of `scanInlineF`
consumes at least one character). -/
def scanInline (atStart : Bool) (s : List Char) : List (List Char) :=
  scanInlineF (s.length + 1) atStart s

/-- `VaultOperations.extractExistingTags`: frontmatter `tags:` values
followed by the inline-tag captures. -/
def extractExistingTags (content : List Char) : List (List Char) :=
  (match fmBlock content with
   | some (fm, _) =>
     match tagsLineValue fm with
     | some v => parseFrontmatterTags v
     | none => []
   | none => []) ++ scanInline true content

/-- `VaultOperations.addFrontmatterTags`: replace the first line-initial
`tags:` line of the frontmatter body by the re-serialised list. -/
def replaceTagsLine (fm newLine : List Char) : List Char :=
  match lineStartIdx (chars "tags:") fm with
  | none => fm
  | some i =>
    fm.take i ++ newLine ++
      (fm.drop i).dropWhile (fun c => c ≠ '\n')

/-- Join with a separator (`Array.prototype.join`). -/
def joinSep (sep : List Char) (xs : List (List Char)) : List Char :=
  List.intercalate sep xs

/-- `VaultOperations.addFrontmatterTags`. -/
def addFrontmatterTags (content : List Char) (tags : List (List Char)) :
    List Char :=
  match fmBlock content with
  | some (fm, rest) =>
    let fm' :=
      match tagsLineValue fm with
      | some v =>
        let existingTags := parseFrontmatterTags v
        let newTags := tags.filter (fun t =>
          ¬ existingTags.any (fun e => lowerStr e = lowerStr t))
        let allTags := existingTags ++ newTags
        replaceTagsLine fm (chars "tags: [" ++ joinSep (chars ", ") allTags
          ++ chars "]")
      | none =>
        fm ++ chars "\ntags: [" ++ joinSep (chars ", ") tags ++ chars "]"
    chars "---\n" ++ fm' ++ chars "\n---" ++ rest
  | none =>
    chars "---\ntags: [" ++ joinSep (chars ", ") tags ++ chars "]\n---\n\n"
      ++ content

/-- The tag-name normalisation of `applyTags`
(`tag.tag.startsWith('#') ? tag.tag.slice(1) : tag.tag`). -/
def stripHash : List Char → List Char
  | '#' :: r => r
  | other => other

/-- The partition loop of `VaultOperations.applyTags`: split the suggestions
that are not already present into frontmatter tag names and `#`-prefixed
inline tags, preserving order. -/
def partitionTags (existing : List (List Char)) :
    List SuggestedTag → List (List Char) × List (List Char)
  | [] => ([], [])
  | t :: ts =>
    let tagName := stripHash t.tag
    let rest := partitionTags existing ts
    if existing.any (fun e => lowerStr e = lowerStr tagName) then rest
    else match t.location with
      | TagLoc.frontmatter => (tagName :: rest.1, rest.2)
      | TagLoc.inline_ => (rest.1, ('#' :: tagName) :: rest.2)

/-- `VaultOperations.applyTags`. -/
def applyTags (content : List Char) (tags : List SuggestedTag) : List Char :=
  let existing := extractExistingTags content
  let parts := partitionTags existing tags
  let result := content
  let result :=
    if parts.1.length > 0 then addFrontmatterTags result parts.1 else result
  if parts.2.length > 0 then
    jsTrimEnd result ++ chars "\n\n" ++ joinSep (chars " ") parts.2
  else result

/-! ## Change log: `ChangelogService`

The service's interactions with the Obsidian vault are modelled by an
association list from file paths to contents (`getAbstractFileByPath`
returning a `TFile` corresponds to a present key; `vault.modify` updates a
present key and does nothing otherwise, matching the guarded calls of the
source).  Identifiers and timestamps, produced by `generateId` and
`Date.now`, are taken as parameters. -/

/-- `ChangeEntry['type']` of `src/types/changelog.ts`. -/
inductive ChangeType where
  | linkAdded
  | tagAdded
  | contentModified
  | fileRenamed
  | fileMoved
  deriving DecidableEq, Repr

/-- `ChangeEntry` of `src/types/changelog.ts` (the `details` variant carries
no information used by the change-log algorithms and is modelled by its
summary text). -/
structure ChangeEntry where
  id : String
  timestamp : Nat
  type : ChangeType
  filePath : String
  description : String
  beforeContent : Option String
  afterContent : Option String
  deriving DecidableEq, Repr

/-- `ChangelogSession` of `src/types/changelog.ts`. -/
structure ChangelogSession where
  sessionId : String
  startTime : Nat
  endTime : Option Nat
  changes : List ChangeEntry
  deriving DecidableEq, Repr

/-- `ChangelogStorage` of `src/types/changelog.ts`. -/
structure ChangelogStorage where
  version : Nat
  sessions : List ChangelogSession
  deriving DecidableEq, Repr

/-- The in-memory state of a `ChangelogService` together with the vault it
operates on. -/
structure ServiceState where
  storage : ChangelogStorage
  currentSession : Option ChangelogSession
  vault : List (String × String)
  deriving DecidableEq, Repr

/-- `MAX_SESSIONS` -/
def maxSessions : Nat := 50

/-- Look up a file's content (`getAbstractFileByPath` + `read`). -/
def vlook : List (String × String) → String → Option String
  | [], _ => none
  | (q, c) :: r, p => if q = p then some c else vlook r p

/-- `vault.modify`: overwrite the content of an existing file. -/
def vmod (v : List (String × String)) (p c : String) :
    List (String × String) :=
  v.map (fun e => if e.1 = p then (p, c) else e)

/-- `ChangelogService.startSession`. -/
def startSession (st : ServiceState) (sid : String) (now : Nat) :
    ServiceState :=
  { st with currentSession := some ⟨sid, now, none, []⟩ }

/-- `ChangelogService.recordBefore`. -/
def recordBefore (st : ServiceState) (filePath content : String)
    (cid : String) (now : Nat) : ServiceState :=
  match st.currentSession with
  | none => st
  | some s =>
    let s' := { s with changes := s.changes ++
      [⟨cid, now, ChangeType.contentModified, filePath, "Pending...",
        some content, none⟩] }
    { st with currentSession := some s' }

/-- `ChangelogService.recordAfter`: complete the first change with the given
id in the current session. -/
def recordAfter (st : ServiceState) (cid : String) (afterContent : String)
    (ty : ChangeType) (description : String) : ServiceState :=
  match st.currentSession with
  | none => st
  | some s =>
    let update : List ChangeEntry → List ChangeEntry := fun cs =>
      match cs.find? (fun c => c.id = cid) with
      | none => cs
      | some _ => cs.map (fun c =>
          if c.id = cid then
            { c with afterContent := some afterContent, type := ty,
                     description := description }
          else c)
    { st with currentSession := some { s with changes := update s.changes } }

/-- The patch write between `recordBefore` and `recordAfter`
(`VaultOperations.writeNote` on the target file). -/
def writeNote (st : ServiceState) (p c : String) : ServiceState :=
  { st with vault := vmod st.vault p c }

/-- `ChangelogService.endSession`. -/
def endSession (st : ServiceState) (now : Nat) : ServiceState :=
  match st.currentSession with
  | none => st
  | some s =>
    let s' := { s with endTime := some now }
    if s'.changes.length > 0 then
      let ss := st.storage.sessions ++ [s']
      let ss' := if ss.length > maxSessions
                 then ss.drop (ss.length - maxSessions) else ss
      { st with storage := { st.storage with sessions := ss' },
                currentSession := none }
    else { st with currentSession := none }

/-- JavaScript truthiness of `change.beforeContent` (an optional string):
`undefined` and the empty string are falsy. -/
def truthyContent : Option String → Bool
  | none => false
  | some s => ¬ s.isEmpty

/-- The session-and-change search loop of `ChangelogService.rollbackChange`:
first session containing a change with the given id, together with that
change. -/
def findChange (cid : String) :
    List ChangelogSession → Option (ChangelogSession × ChangeEntry)
  | [] => none
  | s :: ss =>
    match s.changes.find? (fun c => c.id = cid) with
    | some c => some (s, c)
    | none => findChange cid ss

/-- Remove the change with the given id from the first session that contains
it (the in-place mutation of `targetSession.changes`). -/
def removeFromFirst (cid : String) :
    List ChangelogSession → List ChangelogSession
  | [] => []
  | s :: ss =>
    if s.changes.any (fun c => c.id = cid) then
      { s with changes := s.changes.filter (fun c => ¬ c.id = cid) } :: ss
    else s :: removeFromFirst cid ss

/-- `ChangelogService.rollbackChange`. -/
def rollbackChange (st : ServiceState) (cid : String) : Bool × ServiceState :=
  match findChange cid st.storage.sessions with
  | none => (false, st)
  | some (_, ch) =>
    if ¬ truthyContent ch.beforeContent then (false, st)
    else
      match vlook st.vault ch.filePath with
      | none => (false, st)
      | some _ =>
        let v' := vmod st.vault ch.filePath (ch.beforeContent.getD "")
        let sessions' := (removeFromFirst cid st.storage.sessions).filter
          (fun s => s.changes.length > 0)
        let stor := { st.storage with sessions := sessions' }
        (true, { st with vault := v', storage := stor })

/-- The per-change body of the rollback loop of
`ChangelogService.rollbackSession` (applied to the reversed change list). -/
def rollbackStep (acc : Nat × List (String × String)) (ch : ChangeEntry) :
    Nat × List (String × String) :=
  if truthyContent ch.beforeContent then
    match vlook acc.2 ch.filePath with
    | some _ => (acc.1 + 1, vmod acc.2 ch.filePath (ch.beforeContent.getD ""))
    | none => acc
  else acc

/-- `ChangelogService.rollbackSession`. -/
def rollbackSession (st : ServiceState) (sid : String) : Nat × ServiceState :=
  match st.storage.sessions.find? (fun s => s.sessionId = sid) with
  | none => (0, st)
  | some sess =>
    let nv := sess.changes.reverse.foldl rollbackStep (0, st.vault)
    let sessions' := st.storage.sessions.filter
      (fun s => ¬ s.sessionId = sid)
    let stor := { st.storage with sessions := sessions' }
    (nv.1, { st with vault := nv.2, storage := stor })

/-! ## Oracle response parsing: `ClaudeService.parseAnalysisResponse`

`JSON.parse` is modelled by a small recursive-descent parser over the JSON
grammar (objects, arrays, strings with escapes, numbers, literals), with
duplicate object keys resolved last-wins as in JavaScript.  Property access
on a non-object yields no value (JavaScript `undefined`); property access on
`null` throws, which the model propagates as failure to the enclosing
`try`/`catch`. -/

/-- JSON values. -/
inductive Json where
  | null
  | bool (b : Bool)
  | num (q : ℚ)
  | jstr (s : List Char)
  | arr (elems : List Json)
  | obj (fields : List (List Char × Json))

/-- JSON insignificant whitespace. -/
def jsonWs (c : Char) : Bool := c = ' ' || c = '\t' || c = '\n' || c = '\r'

/-- Skip JSON whitespace. -/
def skipWs (s : List Char) : List Char := s.dropWhile jsonWs

/-- Hexadecimal digit test for `\u` escapes. -/
def isHex (c : Char) : Bool :=
  c.isDigit || ('a' ≤ c && c ≤ 'f') || ('A' ≤ c && c ≤ 'F')

/-- Parse the body of a JSON string after the opening quote, handling the
escape sequences of the JSON grammar. -/
def parseStrBody (fuel : Nat) (s : List Char) :
    Option (List Char × List Char) :=
  match fuel with
  | 0 => none
  | f + 1 =>
    match s with
    | [] => none
    | '"' :: r => some ([], r)
    | '\\' :: e :: r =>
      let simpleEsc : Option Char :=
        if e = '"' then some '"'
        else if e = '\\' then some '\\'
        else if e = '/' then some '/'
        else if e = 'b' then some '\x08'
        else if e = 'f' then some '\x0c'
        else if e = 'n' then some '\n'
        else if e = 'r' then some '\r'
        else if e = 't' then some '\t'
        else none
      (match simpleEsc with
       | some c => (parseStrBody f r).map (fun p => (c :: p.1, p.2))
       | none =>
         if e = 'u' then
           match r with
           | a :: b :: c2 :: d :: r2 =>
             if isHex a && isHex b && isHex c2 && isHex d then
               let hv : Char → Nat := fun ch =>
                 if ch.isDigit then ch.toNat - 48
                 else if 'a' ≤ ch then ch.toNat - 87 else ch.toNat - 55
               let code := ((hv a * 16 + hv b) * 16 + hv c2) * 16 + hv d
               (parseStrBody f r2).map (fun p => (Char.ofNat code :: p.1, p.2))
             else none
           | _ => none
         else none)
    | c :: r =>
      if c.toNat < 32 then none
      else (parseStrBody f r).map (fun p => (c :: p.1, p.2))

/-- Parse a nonempty run of decimal digits as a natural number. -/
def parseDigits (s : List Char) : Option (Nat × List Char) :=
  let ds := s.takeWhile Char.isDigit
  if ds.isEmpty then none
  else some (ds.foldl (fun n c => n * 10 + (c.toNat - 48)) 0,
             s.dropWhile Char.isDigit)

/-- Parse a JSON number (sign, integer part, optional fraction and
exponent) as a rational. -/
def parseNumber (s : List Char) : Option (ℚ × List Char) :=
  let (neg, s1) := match s with
    | '-' :: r => (true, r)
    | _ => (false, s)
  let ip? : Option (Nat × List Char) :=
    match s1 with
    | '0' :: c :: r => if c.isDigit then none else some (0, c :: r)
    | '0' :: r => some (0, r)
    | _ => match s1 with
      | c :: _ => if c.isDigit && c ≠ '0' then parseDigits s1 else none
      | [] => none
  match ip? with
  | none => none
  | some (ip, s2) =>
    let fr? : Option (ℚ × List Char) :=
      match s2 with
      | '.' :: r =>
        match parseDigits r with
        | some (fv, s3) =>
          some ((fv : ℚ) / (10 : ℚ) ^ (r.takeWhile Char.isDigit).length, s3)
        | none => none
      | _ => some (0, s2)
    match fr? with
    | none => none
    | some (fv, s3) =>
      let ex? : Option (ℚ × List Char) :=
        match s3 with
        | 'e' :: r | 'E' :: r =>
          let (eneg, r1) := match r with
            | '-' :: r2 => (true, r2)
            | '+' :: r2 => (false, r2)
            | _ => (false, r)
          match parseDigits r1 with
          | some (ev, s4) =>
            some (if eneg then ((10 : ℚ) ^ ev)⁻¹ else (10 : ℚ) ^ ev, s4)
          | none => none
        | _ => some (1, s3)
      match ex? with
      | none => none
      | some (ex, s4) =>
        let mag := ((ip : ℚ) + fv) * ex
        some (if neg then -mag else mag, s4)

/-- Parser modes: a JSON value, the remaining elements of a nonempty array
(with the elements parsed so far), or the remaining members of a nonempty
object. -/
inductive PMode where
  | val
  | elems (acc : List Json)
  | members (acc : List (List Char × Json))

/-- The recursive-descent JSON parser (structurally recursive on fuel). -/
def pRun : Nat → PMode → List Char → Option (Json × List Char)
  | 0, _, _ => none
  | f + 1, PMode.val, s0 =>
    let s := skipWs s0
    match s with
    | 'n' :: 'u' :: 'l' :: 'l' :: r => some (Json.null, r)
    | 't' :: 'r' :: 'u' :: 'e' :: r => some (Json.bool true, r)
    | 'f' :: 'a' :: 'l' :: 's' :: 'e' :: r => some (Json.bool false, r)
    | '"' :: r =>
      (parseStrBody (r.length + 1) r).map (fun p => (Json.jstr p.1, p.2))
    | '[' :: r =>
      (match skipWs r with
       | ']' :: r2 => some (Json.arr [], r2)
       | _ => pRun f (PMode.elems []) r)
    | '{' :: r =>
      (match skipWs r with
       | '}' :: r2 => some (Json.obj [], r2)
       | _ => pRun f (PMode.members []) r)
    | _ => (parseNumber s).map (fun p => (Json.num p.1, p.2))
  | f + 1, PMode.elems acc, s =>
    match pRun f PMode.val s with
    | none => none
    | some (v, r) =>
      match skipWs r with
      | ',' :: r2 => pRun f (PMode.elems (acc ++ [v])) r2
      | ']' :: r2 => some (Json.arr (acc ++ [v]), r2)
      | _ => none
  | f + 1, PMode.members acc, s =>
    match skipWs s with
    | '"' :: r =>
      (match parseStrBody (r.length + 1) r with
       | none => none
       | some (k, r2) =>
         match skipWs r2 with
         | ':' :: r3 =>
           (match pRun f PMode.val r3 with
            | none => none
            | some (v, r4) =>
              match skipWs r4 with
              | ',' :: r5 => pRun f (PMode.members (acc ++ [(k, v)])) r5
              | '}' :: r5 => some (Json.obj (acc ++ [(k, v)]), r5)
              | _ => none)
         | _ => none)
    | _ => none

/-- `JSON.parse`: parse a complete JSON document (no trailing input).  The
fuel bounds the parser's recursion depth, which grows at most twice as fast
as the input is consumed. -/
def runParse (s : List Char) : Option Json :=
  match pRun (2 * s.length + 4) PMode.val s with
  | some (j, r) => if (skipWs r).isEmpty then some j else none
  | none => none

/-- The span matched by the regex `\{` + `[\s\S]*` + `\}` in
`parseAnalysisResponse`: from the first `{` of the text to the last `}`
(greedy), when the latter comes after the former. -/
def extractSpan (text : List Char) : Option (List Char) :=
  match text.findIdx? (fun c => c = '{'),
        (text.reverse.findIdx? (fun c => c = '}')).map
          (fun k => text.length - 1 - k) with
  | some p, some q =>
    if p < q then some ((text.drop p).take (q - p + 1)) else none
  | _, _ => none

/-- JavaScript property access on a parsed value: only objects have
properties; for duplicate keys the last occurrence wins. -/
def getField : Json → List Char → Option Json
  | Json.obj fs, k =>
    fs.foldl (fun acc f => if f.1 = k then some f.2 else acc) none
  | _, _ => none

/-- The clamp `Math.min(1, Math.max(0, rawConfidence))`. -/
def jClamp (q : ℚ) : ℚ := min 1 (max 0 q)

/-- `ClaudeService.validateLink`. -/
def validateLink (j : Json) : SuggestedLink :=
  let rawConfidence := match getField j (chars "confidence") with
    | some (Json.num q) => q
    | _ => mkRat 1 2
  { targetText := match getField j (chars "targetText") with
      | some (Json.jstr s) => s
      | _ => []
    linkTarget := match getField j (chars "linkTarget") with
      | some (Json.jstr s) => s
      | _ => []
    reasoning := match getField j (chars "reasoning") with
      | some (Json.jstr s) => s
      | _ => []
    confidence := jClamp rawConfidence }

/-- `ClaudeService.validateTag`. -/
def validateTag (j : Json) : SuggestedTag :=
  let rawConfidence := match getField j (chars "confidence") with
    | some (Json.num q) => q
    | _ => mkRat 1 2
  { tag := match getField j (chars "tag") with
      | some (Json.jstr s) => s
      | _ => []
    location := match getField j (chars "location") with
      | some (Json.jstr s) =>
        if s = chars "inline" then TagLoc.inline_ else TagLoc.frontmatter
      | _ => TagLoc.frontmatter
    reasoning := match getField j (chars "reasoning") with
      | some (Json.jstr s) => s
      | _ => []
    confidence := jClamp rawConfidence }

/-- `validateLink` as invoked through `Array.prototype.map`: property
access on a `null` element throws a `TypeError`, modelled as `none`
(the exception is caught by `parseAnalysisResponse`). -/
def validateLinkOpt (j : Json) : Option SuggestedLink :=
  match j with
  | Json.null => none
  | _ => some (validateLink j)

/-- `validateTag` as invoked through `Array.prototype.map` (see
`validateLinkOpt`). -/
def validateTagOpt (j : Json) : Option SuggestedTag :=
  match j with
  | Json.null => none
  | _ => some (validateTag j)

/-- `NoteAnalysisResult` of `src/types` (the `keyConcepts` array is passed
through unvalidated by the source and is therefore a list of raw JSON
values here). -/
structure NoteAnalysisResult where
  suggestedLinks : List SuggestedLink
  suggestedTags : List SuggestedTag
  keyConcepts : List Json
  summary : List Char

/-- The empty analysis result returned on parse failure. -/
def emptyResult : NoteAnalysisResult :=
  { suggestedLinks := [], suggestedTags := [], keyConcepts := [],
    summary := [] }

/-- `ClaudeService.parseAnalysisResponse`. -/
def parseAnalysisResponse (text : List Char) : NoteAnalysisResult :=
  match extractSpan text with
  | none => emptyResult
  | some span =>
    match runParse span with
    | none => emptyResult
    | some j =>
      let links? : Option (List SuggestedLink) :=
        match getField j (chars "suggestedLinks") with
        | some (Json.arr xs) => xs.mapM validateLinkOpt
        | _ => some []
      let tags? : Option (List SuggestedTag) :=
        match getField j (chars "suggestedTags") with
        | some (Json.arr xs) => xs.mapM validateTagOpt
        | _ => some []
      match links?, tags? with
      | some ls, some ts =>
        { suggestedLinks := ls
          suggestedTags := ts
          keyConcepts := match getField j (chars "keyConcepts") with
            | some (Json.arr xs) => xs
            | _ => []
          summary := match getField j (chars "summary") with
            | some (Json.jstr s) => s
            | _ => [] }
      | _, _ => emptyResult

/-! ## General lemmas -/

/-- Boolean prefix test agrees with the prefix relation (specialised to
character lists). -/
theorem isPrefixOf_eq_iff {l1 l2 : List Char} :
    l1.isPrefixOf l2 = true ↔ l1 <+: l2 :=
  List.isPrefixOf_iff_prefix

/-- `includesStr` decides the substring (infix) relation. -/
theorem includesStr_iff {hay needle : List Char} :
    includesStr hay needle = true ↔ needle <:+: hay := by
  induction hay with
  | nil =>
    simp only [includesStr, firstIdx]
    split
    · next h =>
      simp only [Option.isSome_some, true_iff]
      exact (isPrefixOf_eq_iff.mp h).isInfix
    · next h =>
      simp only [Option.isSome_none, Bool.false_eq_true, false_iff]
      intro hinf
      rw [List.infix_nil] at hinf
      subst hinf
      exact h (by simp)
  | cons c t ih =>
    simp only [includesStr, firstIdx]
    split
    · next h =>
      simp only [Option.isSome_some, true_iff]
      exact (isPrefixOf_eq_iff.mp h).isInfix
    · next h =>
      simp only [Option.isSome_map']
      rw [List.infix_cons_iff]
      rw [includesStr] at ih
      rw [ih]
      constructor
      · exact Or.inr
      · rintro (hp | hi)
        · exact absurd (isPrefixOf_eq_iff.mpr hp) (by simpa using h)
        · exact hi

/-- Infix-of version, the direction used to discharge the skip checks. -/
theorem includesStr_of_isInfix {hay needle : List Char}
    (h : needle <:+: hay) : includesStr hay needle = true :=
  includesStr_iff.mpr h

/-- If the already-linked fast check holds, `applyOne` keeps the text. -/
theorem applyOne_of_included {c : List Char} {s : SuggestedLink}
    (h : includesStr c (chars "[[" ++ s.linkTarget ++ chars "]]") = true ∨
         includesStr c (chars "[[" ++ s.linkTarget ++ chars "|") = true) :
    applyOne c s = c := by
  have hcond : (includesStr c (chars "[[" ++ s.linkTarget ++ chars "]]") ||
      includesStr c (chars "[[" ++ s.linkTarget ++ chars "|")) = true := by
    rw [Bool.or_eq_true]
    exact h
  unfold applyOne
  rw [hcond]
  rfl

/-- Processing one suggestion either keeps the text, or leaves a text in
which the already-linked fast check fires. -/
theorem applyOne_skip_or_marked (c : List Char) (s : SuggestedLink) :
    applyOne c s = c ∨
    includesStr (applyOne c s)
      (chars "[[" ++ s.linkTarget ++ chars "]]") = true ∨
    includesStr (applyOne c s)
      (chars "[[" ++ s.linkTarget ++ chars "|") = true := by
  unfold applyOne
  split
  · exact Or.inl rfl
  · split
    · exact Or.inl rfl
    · split
      · exact Or.inl rfl
      · next i hi =>
        right
        dsimp only
        by_cases hd : lowerStr ((c.drop i).take s.targetText.length) =
            lowerStr s.linkTarget
        · left
          rw [if_pos hd]
          apply includesStr_of_isInfix
          refine ⟨c.take i, c.drop (i + s.targetText.length), ?_⟩
          simp [chars, List.append_assoc]
        · right
          rw [if_neg hd]
          apply includesStr_of_isInfix
          refine ⟨c.take i, (c.drop i).take s.targetText.length ++
            chars "]]" ++ c.drop (i + s.targetText.length), ?_⟩
          simp [chars, List.append_assoc]

/-- Claim C3's amended form, general lemma: `applyLinks` with a single
suggestion is idempotent (the fast skip check fires on the patched text). -/
theorem applyLinks_single_idem (content : List Char) (s : SuggestedLink) :
    applyLinks (applyLinks content [s]) [s] = applyLinks content [s] := by
  have happ : ∀ c : List Char, applyLinks c [s] = applyOne c s := fun c => rfl
  simp only [happ]
  rcases applyOne_skip_or_marked content s with h | h
  · rw [h]
    exact h
  · exact applyOne_of_included h

/-- `filterLinks`'s `toApply` component is the order-preserving filter by
`acceptLink`. -/
theorem filterLinks_toApply (t : ℚ) (ls : List SuggestedLink)
    (content : List Char) (notes : List (List Char)) :
    (filterLinks t ls content notes).1 =
      ls.filter (acceptLink t content notes) := by
  induction ls with
  | nil => rfl
  | cons l ls ih =>
    by_cases h : acceptLink t content notes l <;>
      simp [filterLinks, List.filter_cons, h, ih]

/-- `filterLinks`'s `toSkip` component is the filter by the negated test. -/
theorem filterLinks_toSkip (t : ℚ) (ls : List SuggestedLink)
    (content : List Char) (notes : List (List Char)) :
    (filterLinks t ls content notes).2 =
      ls.filter (fun l => ! acceptLink t content notes l) := by
  induction ls with
  | nil => rfl
  | cons l ls ih =>
    by_cases h : acceptLink t content notes l <;>
      simp [filterLinks, List.filter_cons, h, ih]

/-- `filterTags`'s `toApply` component is the order-preserving filter by
`acceptTag`. -/
theorem filterTags_toApply (t : ℚ) (allowNew : Bool) (ctx : VaultContext)
    (ts : List SuggestedTag) (content : List Char) :
    (filterTags t allowNew ctx ts content).1 =
      ts.filter (acceptTag t allowNew ctx content) := by
  induction ts with
  | nil => rfl
  | cons x ts ih =>
    by_cases h : acceptTag t allowNew ctx content x <;>
      simp [filterTags, List.filter_cons, h, ih]

/-- `filterTags`'s `toSkip` component is the filter by the negated test. -/
theorem filterTags_toSkip (t : ℚ) (allowNew : Bool) (ctx : VaultContext)
    (ts : List SuggestedTag) (content : List Char) :
    (filterTags t allowNew ctx ts content).2 =
      ts.filter (fun x => ! acceptTag t allowNew ctx content x) := by
  induction ts with
  | nil => rfl
  | cons x ts ih =>
    by_cases h : acceptTag t allowNew ctx content x <;>
      simp [filterTags, List.filter_cons, h, ih]

/-- Only the confidence gate of `acceptLink` depends on the threshold, so
acceptance at a higher threshold implies acceptance at a lower one. -/
theorem acceptLink_mono {t1 t2 : ℚ} (h12 : t1 ≤ t2) {content : List Char}
    {notes : List (List Char)} {l : SuggestedLink}
    (h : acceptLink t2 content notes l = true) :
    acceptLink t1 content notes l = true := by
  unfold acceptLink at h ⊢
  by_cases hlt : l.confidence < t2
  · rw [if_pos hlt] at h
    exact absurd h (by simp)
  · rw [if_neg hlt] at h
    rw [if_neg (fun hlt1 => hlt (lt_of_lt_of_le hlt1 h12))]
    exact h

/-- Threshold monotonicity of `acceptTag`. -/
theorem acceptTag_mono {t1 t2 : ℚ} (h12 : t1 ≤ t2) {allowNew : Bool}
    {ctx : VaultContext} {content : List Char} {x : SuggestedTag}
    (h : acceptTag t2 allowNew ctx content x = true) :
    acceptTag t1 allowNew ctx content x = true := by
  unfold acceptTag at h ⊢
  by_cases hlt : x.confidence < t2
  · rw [if_pos hlt] at h
    exact absurd h (by simp)
  · rw [if_neg hlt] at h
    rw [if_neg (fun hlt1 => hlt (lt_of_lt_of_le hlt1 h12))]
    exact h

/-- A suggestion below the confidence threshold fails `acceptLink`. -/
theorem acceptLink_below {t : ℚ} {content : List Char}
    {notes : List (List Char)} {l : SuggestedLink}
    (h : l.confidence < t) : acceptLink t content notes l = false := by
  unfold acceptLink
  rw [if_pos h]

/-- A suggestion below the confidence threshold fails `acceptTag`. -/
theorem acceptTag_below {t : ℚ} {allowNew : Bool} {ctx : VaultContext}
    {content : List Char} {x : SuggestedTag}
    (h : x.confidence < t) : acceptTag t allowNew ctx content x = false := by
  unfold acceptTag
  rw [if_pos h]

/-- `dropWhile` over an append stops no later than a failing head of the
second part. -/
theorem dropWhile_append_cons (p : Char → Bool) (a : List Char) (x : Char)
    (w : List Char) (hx : p x = false) :
    (a ++ x :: w).dropWhile p = a.dropWhile p ++ x :: w := by
  induction a with
  | nil => simp [List.dropWhile_cons, hx]
  | cons y a ih =>
    by_cases hy : p y = true <;>
      simp [List.dropWhile_cons, hy, ih]

/-- `takeWhile` and `dropWhile` on a list all of whose elements satisfy the
predicate. -/
theorem takeWhile_dropWhile_all {p : Char → Bool} {l : List Char}
    (h : l.all p = true) : l.takeWhile p = l ∧ l.dropWhile p = [] := by
  induction l with
  | nil => simp
  | cons x l ih =>
    simp only [List.all_cons, Bool.and_eq_true] at h
    simp [List.takeWhile_cons, List.dropWhile_cons, h.1, ih h.2]

/-- A tag name the inline scanner can recognise: nonempty, starts with an
ASCII letter, rest in the allowed tag character class. -/
def validTagName : List Char → Bool
  | [] => false
  | d :: r => d.isAlpha && r.all allowedTagChar

/-- A successful `startHash` on a text ending in the marker pattern either
consumed only pre-pattern characters, leaving the pattern as a suffix. -/
theorem startHash_suffix {w name : List Char} {nr : List Char × List Char}
    (h : startHash (w ++ '\n' :: '#' :: name) = some nr) :
    ∃ u2 : List Char, nr.2 = u2 ++ '\n' :: '#' :: name ∧
      u2.length + 2 ≤ w.length := by
  cases w with
  | nil =>
    rw [List.nil_append] at h
    simp only [startHash] at h
    split at h
    · next hcond =>
      rw [Bool.and_eq_true] at hcond
      exact absurd hcond.1 (by decide)
    · exact absurd h (by simp)
  | cons x w1 =>
    cases w1 with
    | nil =>
      simp only [List.cons_append, List.nil_append, startHash] at h
      split at h
      · next hcond =>
        rw [Bool.and_eq_true] at hcond
        exact absurd hcond.2 (by decide)
      · exact absurd h (by simp)
    | cons y w2 =>
      simp only [List.cons_append, startHash] at h
      split at h
      · injection h with h1
        subst h1
        refine ⟨(w2.dropWhile allowedTagChar), ?_, ?_⟩
        · exact dropWhile_append_cons allowedTagChar w2 '\n' ('#' :: name)
            (by decide)
        · have : (w2.dropWhile allowedTagChar).length ≤ w2.length :=
            (List.dropWhile_sublist _).length_le
          simp only [List.length_cons]
          omega
      · exact absurd h (by simp)

/-- The inline-tag scanner finds a valid tag name that follows a newline and
a hash marker at the end of the text, whatever precedes it. -/
theorem scanInlineF_finds (name : List Char) (hv : validTagName name = true) :
    ∀ (fuel : Nat) (u : List Char) (b : Bool),
      u.length + 1 ≤ fuel →
      name ∈ scanInlineF fuel b (u ++ '\n' :: '#' :: name) := by
  intro fuel
  induction fuel with
  | zero =>
    intro u b hu
    omega
  | succ f ih =>
    intro u b hu
    cases u with
    | nil =>
      obtain ⟨d, r, hdr⟩ : ∃ d r, name = d :: r := by
        cases name with
        | nil => exact absurd hv (by simp [validTagName])
        | cons d r => exact ⟨d, r, rfl⟩
      have hv' := hv
      rw [hdr, validTagName, Bool.and_eq_true] at hv'
      have hsh : startHash ('#' :: name) = some
          (d :: r.takeWhile allowedTagChar, r.dropWhile allowedTagChar) := by
        rw [hdr]
        simp [startHash, hv'.1]
      have htk := takeWhile_dropWhile_all hv'.2
      rw [List.nil_append]
      have hnone : (if b then startHash ('\n' :: '#' :: name) else none)
          = none := by
        rw [hdr]
        cases b <;> simp [startHash]
      rw [scanInlineF, hnone]
      simp only
      rw [if_pos (by decide : isJsWs '\n' = true), hsh]
      simp only
      rw [hdr, htk.1]
      exact List.mem_cons_self _ _
    | cons c u1 =>
      have hu1 : u1.length + 1 ≤ f := by
        simp only [List.length_cons] at hu
        omega
      rw [List.cons_append, scanInlineF]
      rcases hsh0 : (if b then startHash (c :: (u1 ++ '\n' :: '#' :: name))
          else none) with _ | nr
      · show name ∈ (if isJsWs c then
          match startHash (u1 ++ '\n' :: '#' :: name) with
          | some nr => nr.1 :: scanInlineF f false nr.2
          | none => scanInlineF f false (u1 ++ '\n' :: '#' :: name)
          else scanInlineF f false (u1 ++ '\n' :: '#' :: name))
        split
        · -- a whitespace head: try a hash match on the tail
          split
          · next nr1 heq =>
            obtain ⟨u2, hu2, hlen⟩ := startHash_suffix heq
            rw [hu2]
            exact List.mem_cons_of_mem _ (ih u2 false (by omega))
          · exact ih u1 false hu1
        · exact ih u1 false hu1
      · show name ∈ nr.1 :: scanInlineF f false nr.2
        have hb : startHash (c :: (u1 ++ '\n' :: '#' :: name)) = some nr := by
          rcases b with _ | _
          · simp at hsh0
          · simpa using hsh0
        obtain ⟨u2, hu2, hlen⟩ := startHash_suffix (w := c :: u1)
          (by rw [List.cons_append]; exact hb)
        rw [hu2]
        simp only [List.length_cons] at hlen
        exact List.mem_cons_of_mem _ (ih u2 false (by omega))

/-- Joining a one-element list is the element. -/
theorem joinSep_single (sep x : List Char) : joinSep sep [x] = x := by
  simp [joinSep, List.intercalate]

/-- Claim C4's amended form, general lemma: `applyTags` is idempotent for a
single inline-location suggestion whose tag name is recognisable by the
inline scanner. -/
theorem applyTags_single_inline_idem (D : List Char) (t : SuggestedTag)
    (hloc : t.location = TagLoc.inline_)
    (hname : validTagName (stripHash t.tag) = true) :
    applyTags (applyTags D [t]) [t] = applyTags D [t] := by
  by_cases hex : (extractExistingTags D).any
      (fun e => lowerStr e = lowerStr (stripHash t.tag)) = true
  · have h1 : applyTags D [t] = D := by
      unfold applyTags
      simp [partitionTags, hex]
    rw [h1]
    exact h1
  · have h1 : applyTags D [t] =
        jsTrimEnd D ++ chars "\n\n" ++ ('#' :: stripHash t.tag) := by
      unfold applyTags
      simp [partitionTags, hex, hloc, joinSep_single]
    have hscan : stripHash t.tag ∈ scanInline true (applyTags D [t]) := by
      rw [h1]
      have hform : jsTrimEnd D ++ chars "\n\n" ++ ('#' :: stripHash t.tag) =
          (jsTrimEnd D ++ ['\n']) ++ '\n' :: '#' :: stripHash t.tag := by
        simp [chars]
      rw [hform]
      exact scanInlineF_finds _ hname _ _ true (by
        simp only [List.length_append, List.length_cons]
        omega)
    have hex2 : (extractExistingTags (applyTags D [t])).any
        (fun e => lowerStr e = lowerStr (stripHash t.tag)) = true := by
      rw [List.any_eq_true]
      refine ⟨stripHash t.tag, ?_, by simp⟩
      unfold extractExistingTags
      exact List.mem_append_right _ hscan
    conv_lhs => rw [applyTags]
    simp [partitionTags, hex2]

/-- Effect of `vmod` on `vlook`: the modified path's content is replaced
when present; nothing else changes. -/
theorem vlook_vmod (v : List (String × String)) (p c q : String) :
    vlook (vmod v p c) q =
      if q = p then (vlook v q).map (fun _ => c) else vlook v q := by
  induction v with
  | nil =>
    simp only [vmod, List.map_nil, vlook]
    split <;> rfl
  | cons e v ih =>
    obtain ⟨k, w⟩ := e
    simp only [vmod, List.map_cons]
    by_cases hk : k = p
    · subst hk
      rw [if_pos rfl]
      simp only [vmod] at ih
      simp only [vlook, ih]
      split_ifs <;> subst_vars <;> simp_all
    · rw [if_neg hk]
      simp only [vmod] at ih
      simp only [vlook, ih]
      split_ifs <;> subst_vars <;> simp_all

/-- `vmod` never changes which paths exist. -/
theorem vlook_vmod_isSome (v : List (String × String)) (p c q : String) :
    (vlook (vmod v p c) q).isSome = (vlook v q).isSome := by
  rw [vlook_vmod]
  split <;> simp

/-- The rollback loop of `rollbackSession`, viewed over the unreversed
change list (the last-made change is restored first, so the session's
earliest qualifying change per path determines the final content): count of
restores, preservation of the vault's domain, and final contents. -/
theorem rollbackFold (v0 : List (String × String)) (l : List ChangeEntry) :
    ∀ (n : Nat) (v : List (String × String)),
      (∀ q, (vlook v q).isSome = (vlook v0 q).isSome) →
      ((l.foldr (fun c acc => rollbackStep acc c) (n, v)).1 =
        n + (l.filter (fun c => truthyContent c.beforeContent &&
            (vlook v0 c.filePath).isSome)).length) ∧
      (∀ q, (vlook (l.foldr (fun c acc => rollbackStep acc c) (n, v)).2
          q).isSome = (vlook v0 q).isSome) ∧
      (∀ q, vlook (l.foldr (fun c acc => rollbackStep acc c) (n, v)).2 q =
        match l.find? (fun c => c.filePath = q &&
            (truthyContent c.beforeContent &&
             (vlook v0 c.filePath).isSome)) with
        | some c => some (c.beforeContent.getD "")
        | none => vlook v q) := by
  induction l with
  | nil =>
    intro n v hv
    exact ⟨by simp, hv, fun q => by simp [List.find?]⟩
  | cons c l ih =>
    intro n v hv
    obtain ⟨ih1, ih2, ih3⟩ := ih n v hv
    set inner := l.foldr (fun c acc => rollbackStep acc c) (n, v) with hinner
    simp only [List.foldr_cons]
    by_cases hb : truthyContent c.beforeContent = true
    · rcases hv0 : vlook inner.2 c.filePath with _ | w
      · have habs : (vlook v0 c.filePath).isSome = false := by
          rw [← ih2, hv0]
          rfl
        have hstep : rollbackStep inner c = inner := by
          simp [rollbackStep, hb, hv0]
        rw [hstep]
        refine ⟨?_, ih2, ?_⟩
        · rw [ih1]
          simp [List.filter_cons, habs, hb]
        · intro q
          rw [ih3 q, List.find?_cons_of_neg]
          simp only [Bool.and_eq_true, decide_eq_true_eq, not_and]
          intro hpq _
          rw [hpq] at habs
          rw [hpq]
          cases hvv : vlook v0 q with
          | none => simp
          | some ww => rw [hvv] at habs; simp at habs
      · have hpres : (vlook v0 c.filePath).isSome = true := by
          rw [← ih2, hv0]
          rfl
        have hstep : rollbackStep inner c =
            (inner.1 + 1, vmod inner.2 c.filePath
              (c.beforeContent.getD "")) := by
          simp [rollbackStep, hb, hv0]
        rw [hstep]
        refine ⟨?_, ?_, ?_⟩
        · simp only
          rw [ih1]
          simp [List.filter_cons, hb, hpres]
          omega
        · intro q
          simp only
          rw [vlook_vmod_isSome]
          exact ih2 q
        · intro q
          simp only
          rw [vlook_vmod]
          by_cases hq : q = c.filePath
          · rw [if_pos hq]
            subst hq
            rw [hv0, List.find?_cons_of_pos]
            · rfl
            · simp [hb, hpres]
          · rw [if_neg hq, ih3 q, List.find?_cons_of_neg]
            simp only [Bool.and_eq_true, decide_eq_true_eq, not_and]
            intro hpq
            exact absurd hpq.symm hq
    · have hstep : rollbackStep inner c = inner := by
        simp [rollbackStep, hb]
      rw [hstep]
      refine ⟨?_, ih2, ?_⟩
      · rw [ih1]
        simp [List.filter_cons, hb]
      · intro q
        rw [ih3 q, List.find?_cons_of_neg]
        simp [hb]

/-- A list obtained by keeping only sessions with at least one change
contains no empty session. -/
theorem nonempty_of_mem_filter_len {ss : List ChangelogSession}
    {s : ChangelogSession}
    (h : s ∈ ss.filter (fun s => s.changes.length > 0)) : s.changes ≠ [] := by
  have := (List.mem_filter.mp h).2
  simp only [decide_eq_true_eq] at this
  exact List.ne_nil_of_length_pos this


/-! ## Claims -/

/-- The scenario suggestion of claim C1. -/
def catsLink : SuggestedLink :=
  ⟨chars "cats", chars "Cats", chars "", mkRat 9 10⟩

/-- Claim C1, counterexample: for content `I love cats.` with the single
suggestion `targetText "cats"`, `linkTarget "Cats"`, confidence 0.9, known
targets `["Cats"]` and threshold 0.7, the filter does accept the suggestion,
but the patch does not produce the display-alias form
`I love [[Cats|cats]].` claimed by the specification: the alias is used only
when the matched text differs case-insensitively from the link target, and
`cats` and `Cats` agree after lowering. -/
theorem C1_counterexample :
    (filterLinks (mkRat 7 10) [catsLink]
      (chars "I love cats.") [chars "Cats"]).1 = [catsLink] ∧
    applyLinks (chars "I love cats.") [catsLink] ≠
      chars "I love [[Cats|cats]]." :=
  ⟨by decide, by decide⟩

/-- Claim C1, amended: for content `I love cats.` with the suggestion
`targetText "cats"`, `linkTarget "Cats"`, confidence 0.9, known targets
`["Cats"]`, threshold 0.7, the filter accepts the suggestion and the patch
produces the plain form `I love [[Cats]].` (the display-alias form is used
only when the matched surface text differs case-insensitively from the link
target, which a pure case difference does not). -/
theorem C1_amended :
    (filterLinks (mkRat 7 10) [catsLink]
      (chars "I love cats.") [chars "Cats"]).1 = [catsLink] ∧
    applyLinks (chars "I love cats.") [catsLink] =
      chars "I love [[Cats]]." :=
  ⟨by decide, by decide⟩

/-- The claim C2 failing run: an empty document is recorded with
`recordBefore`, patched to `"patched"`, the session is ended, and the
change's rollback is requested. -/
def emptyBeforeRun : ServiceState :=
  endSession
    (recordAfter
      (writeNote
        (recordBefore
          (startSession ⟨⟨1, []⟩, none, [("note.md", "")]⟩ "S" 0)
          "note.md" "" "C" 1)
        "note.md" "patched")
      "C" "patched" ChangeType.contentModified "apply links")
    2

/-- Claim C2, code evaluated at the failing input: after `recordBefore` of
the empty document content `""` and a patch writing `"patched"`, the change
is present in persisted storage with `beforeContent` equal to `""`, yet
`rollbackChange` returns `false` and the document keeps the patched content
— the JavaScript truthiness test `!targetChange.beforeContent` conflates
the empty string with an absent `beforeContent`. -/
theorem C2_failing_input_eval :
    (findChange "C" emptyBeforeRun.storage.sessions).map
      (fun p => p.2.beforeContent) = some (some "") ∧
    (rollbackChange emptyBeforeRun "C").1 = false ∧
    vlook (rollbackChange emptyBeforeRun "C").2.vault "note.md" =
      some "patched" :=
  ⟨by decide, by decide, by decide⟩

/-- The two suggestions of the claim C3 counterexample. -/
def bracketLinks : List SuggestedLink :=
  [⟨chars "B]", chars "C", chars "", 1⟩,
   ⟨chars "x", chars "B", chars "", 1⟩]

/-- Claim C3, counterexample: `applyLinks` is not idempotent for every
content and suggestion list.  On content `[[B]] x`, applying the
suggestions `B] → C` and `x → B` once destroys the existing link `[[B]]`
(the target text `B]` overlaps its closing brackets), so the second
application inserts a further link for `x → B` that the first had skipped. -/
theorem C3_counterexample :
    applyLinks (applyLinks (chars "[[B]] x") bracketLinks) bracketLinks ≠
      applyLinks (chars "[[B]] x") bracketLinks := by
  decide

/-- Claim C4, counterexample: `applyTags` is not idempotent for every
content and tag-suggestion list.  The inline tag `#123` is appended to
`hello`, but the duplicate detector's inline scan requires a tag to start
with a letter, so a second application appends `#123` again. -/
theorem C4_counterexample :
    applyTags
      (applyTags (chars "hello") [⟨chars "123", TagLoc.inline_, [], 1⟩])
      [⟨chars "123", TagLoc.inline_, [], 1⟩] ≠
    applyTags (chars "hello") [⟨chars "123", TagLoc.inline_, [], 1⟩] := by
  decide

/-- Witness for the amended claim C4 at a concrete input: the inline tag
`#idea` on content `Some text` is applied once and the second application
changes nothing. -/
theorem applyTags_single_inline_idem_witness :
    (⟨chars "#idea", TagLoc.inline_, chars "", 1⟩ : SuggestedTag).location =
      TagLoc.inline_ ∧
    validTagName (stripHash
      (⟨chars "#idea", TagLoc.inline_, chars "", 1⟩ : SuggestedTag).tag) =
      true ∧
    applyTags
      (applyTags (chars "Some text")
        [⟨chars "#idea", TagLoc.inline_, chars "", 1⟩])
      [⟨chars "#idea", TagLoc.inline_, chars "", 1⟩] =
    applyTags (chars "Some text")
      [⟨chars "#idea", TagLoc.inline_, chars "", 1⟩] :=
  ⟨by decide, by decide,
    applyTags_single_inline_idem _ _ (by decide) (by decide)⟩

/-- Claim C5, code evaluated at the failing input: a suggestion whose
`targetText` is the empty string is not rejected; on content `x` with
link target `T` the patch prepends a degenerate alias link, returning
`[[T|]]x` instead of leaving the content unchanged (the empty pattern
matches at index 0 and the empty match differs from the target after
lowering, so the alias branch fires). -/
theorem C5_failing_input_eval :
    applyLinks (chars "x") [⟨chars "", chars "T", chars "", 1⟩] =
      chars "[[T|]]x" ∧
    applyLinks (chars "x") [⟨chars "", chars "T", chars "", 1⟩] ≠
      chars "x" :=
  ⟨by decide, by decide⟩

/-- Claim C6: a session with zero changes is never present in persisted
storage.  If every stored session has at least one change, then after
`endSession` (which persists the current session only when its change list
is nonempty), after `rollbackChange` (which drops any session that becomes
empty), and after `rollbackSession` (which drops the whole target session),
every stored session still has at least one change. -/
theorem sessions_never_empty (st : ServiceState) (now : Nat)
    (cid sid : String)
    (h : ∀ s ∈ st.storage.sessions, s.changes ≠ []) :
    (∀ s ∈ (endSession st now).storage.sessions, s.changes ≠ []) ∧
    (∀ s ∈ (rollbackChange st cid).2.storage.sessions, s.changes ≠ []) ∧
    (∀ s ∈ (rollbackSession st sid).2.storage.sessions, s.changes ≠ []) := by
  refine ⟨?_, ?_, ?_⟩
  · unfold endSession
    cases hc : st.currentSession with
    | none => exact h
    | some s =>
      dsimp only
      split
      · next hlen =>
        intro s' hs'
        have hmem : s' ∈ st.storage.sessions ++
            [{ s with endTime := some now }] := by
          revert hs'
          dsimp only
          split
          · exact fun hs' => List.drop_subset _ _ hs'
          · exact id
        rcases List.mem_append.mp hmem with hm | hm
        · exact h s' hm
        · rw [List.mem_singleton] at hm
          subst hm
          exact List.ne_nil_of_length_pos (by simpa using hlen)
      · exact h
  · unfold rollbackChange
    cases hfc : findChange cid st.storage.sessions with
    | none => exact h
    | some pr =>
      obtain ⟨s0, ch⟩ := pr
      dsimp only
      split
      · exact h
      · cases hvl : vlook st.vault ch.filePath with
        | none => exact h
        | some w =>
          intro s' hs'
          exact nonempty_of_mem_filter_len hs'
  · unfold rollbackSession
    cases hfs : st.storage.sessions.find? (fun s => s.sessionId = sid) with
    | none => exact h
    | some sess =>
      dsimp only
      intro s' hs'
      exact h s' (List.mem_filter.mp hs').1

/-- Witness for claim C6: the invariant applies to a concrete state with
empty persisted storage, and is preserved by `endSession`. -/
theorem sessions_never_empty_witness :
    (∀ s ∈ ({ storage := ⟨1, []⟩, currentSession := none, vault := [] } :
      ServiceState).storage.sessions, s.changes ≠ []) ∧
    (∀ s ∈ (endSession
        { storage := ⟨1, []⟩, currentSession := none, vault := [] }
        5).storage.sessions, s.changes ≠ []) :=
  ⟨by simp, (sessions_never_empty _ 5 "c" "s" (by simp)).1⟩

/-- The claim C7 counterexample state: one persisted session whose single
change has `beforeContent` equal to the empty string, with the target
document present in the vault. -/
def emptyBeforeSessionState : ServiceState :=
  ⟨⟨1, [⟨"S", 0, none,
    [⟨"C", 1, ChangeType.contentModified, "f.md", "d", some "", some "new"⟩]⟩]⟩,
   none, [("f.md", "new")]⟩

/-- Claim C7, counterexample: `rollbackSession` does not restore every
change that has a `beforeContent`.  A change whose recorded `beforeContent`
is the empty string is skipped by the JavaScript truthiness test even
though its target document exists, so the count is 0 and the document keeps
its patched content. -/
theorem C7_counterexample :
    (rollbackSession emptyBeforeSessionState "S").1 = 0 ∧
    vlook (rollbackSession emptyBeforeSessionState "S").2.vault "f.md" =
      some "new" :=
  ⟨by decide, by decide⟩

/-- Claim C7, amended: for a persisted session found under the given id,
`rollbackSession` performs one restore per change that has a nonempty
`beforeContent` and whose target document exists, and returns that count;
it removes every session with that id from storage regardless of partial
success; and because changes are restored in reverse chronological order,
the final content of each document is the `beforeContent` of the session's
earliest qualifying change for that path (documents with no qualifying
change are untouched). -/
theorem rollbackSession_spec (st : ServiceState) (sid : String)
    (sess : ChangelogSession)
    (hfind : st.storage.sessions.find? (fun s => s.sessionId = sid) =
      some sess) :
    (rollbackSession st sid).1 =
      (sess.changes.filter (fun c => truthyContent c.beforeContent &&
        (vlook st.vault c.filePath).isSome)).length ∧
    (∀ s' ∈ (rollbackSession st sid).2.storage.sessions,
      ¬ s'.sessionId = sid) ∧
    (∀ p, vlook (rollbackSession st sid).2.vault p =
      match sess.changes.find? (fun c => c.filePath = p &&
          (truthyContent c.beforeContent &&
           (vlook st.vault c.filePath).isSome)) with
      | some c => some (c.beforeContent.getD "")
      | none => vlook st.vault p) := by
  obtain ⟨h1, h2, h3⟩ :=
    rollbackFold st.vault sess.changes 0 st.vault (fun q => rfl)
  unfold rollbackSession
  rw [hfind]
  dsimp only
  rw [List.foldl_reverse]
  refine ⟨by rw [h1]; simp, ?_, h3⟩
  intro s' hs'
  have := (List.mem_filter.mp hs').2
  simpa using this

/-- The claim C7 scenario session: three changes, of which the middle one
targets a document deleted externally. -/
def threeChangeSession : ChangelogSession :=
  ⟨"S", 0, none,
   [⟨"c1", 1, ChangeType.linkAdded, "a.md", "d1", some "A0", some "A1"⟩,
    ⟨"c2", 2, ChangeType.linkAdded, "gone.md", "d2", some "G0", some "G1"⟩,
    ⟨"c3", 3, ChangeType.tagAdded, "b.md", "d3", some "B0", some "B1"⟩]⟩

/-- The claim C7 scenario state: the session above, with `gone.md` no
longer in the vault. -/
def threeChangeState : ServiceState :=
  ⟨⟨1, [threeChangeSession]⟩, none, [("a.md", "A1"), ("b.md", "B1")]⟩

/-- Witness for the amended claim C7 at the specification's scenario:
3 changes with one target deleted externally give count 2, the session is
removed, and the surviving documents are restored. -/
theorem rollbackSession_spec_witness :
    threeChangeState.storage.sessions.find?
      (fun s => s.sessionId = "S") = some threeChangeSession ∧
    (rollbackSession threeChangeState "S").1 = 2 ∧
    (∀ s' ∈ (rollbackSession threeChangeState "S").2.storage.sessions,
      ¬ s'.sessionId = "S") ∧
    vlook (rollbackSession threeChangeState "S").2.vault "a.md" =
      some "A0" := by
  have h := rollbackSession_spec threeChangeState "S" threeChangeSession
    (by decide)
  refine ⟨by decide, ?_, h.2.1, ?_⟩
  · rw [h.1]
    decide
  · rw [h.2.2 "a.md"]
    decide

/-- Claim C8: raising the confidence threshold never enlarges the
`toApply` set.  For thresholds `t1 ≤ t2`, every suggestion accepted by
`filterLinks` (resp. `filterTags`) at `t2` is accepted at `t1`; and any
suggestion whose confidence is below the threshold is always routed to
`toSkip`, whatever its other properties. -/
theorem confidence_threshold_monotone {t1 t2 : ℚ} (h12 : t1 ≤ t2) :
    (∀ (links : List SuggestedLink) (content : List Char)
        (notes : List (List Char)) (l : SuggestedLink),
        l ∈ (filterLinks t2 links content notes).1 →
        l ∈ (filterLinks t1 links content notes).1) ∧
    (∀ (allowNew : Bool) (ctx : VaultContext) (tags : List SuggestedTag)
        (content : List Char) (x : SuggestedTag),
        x ∈ (filterTags t2 allowNew ctx tags content).1 →
        x ∈ (filterTags t1 allowNew ctx tags content).1) ∧
    (∀ (links : List SuggestedLink) (content : List Char)
        (notes : List (List Char)) (l : SuggestedLink),
        l ∈ links → l.confidence < t2 →
        l ∈ (filterLinks t2 links content notes).2) ∧
    (∀ (allowNew : Bool) (ctx : VaultContext) (tags : List SuggestedTag)
        (content : List Char) (x : SuggestedTag),
        x ∈ tags → x.confidence < t2 →
        x ∈ (filterTags t2 allowNew ctx tags content).2) := by
  refine ⟨?_, ?_, ?_, ?_⟩
  · intro links content notes l hl
    rw [filterLinks_toApply, List.mem_filter] at hl ⊢
    exact ⟨hl.1, acceptLink_mono h12 hl.2⟩
  · intro allowNew ctx tags content x hx
    rw [filterTags_toApply, List.mem_filter] at hx ⊢
    exact ⟨hx.1, acceptTag_mono h12 hx.2⟩
  · intro links content notes l hl hconf
    rw [filterLinks_toSkip, List.mem_filter]
    exact ⟨hl, by rw [acceptLink_below hconf]; rfl⟩
  · intro allowNew ctx tags content x hx hconf
    rw [filterTags_toSkip, List.mem_filter]
    exact ⟨hx, by rw [acceptTag_below hconf]; rfl⟩

/-- Witness for claim C8: with thresholds 0.5 ≤ 0.7, a suggestion of
confidence 0.5 on otherwise perfectly valid data is routed to `toSkip` at
threshold 0.7. -/
theorem confidence_threshold_monotone_witness :
    (mkRat 1 2 ≤ mkRat 7 10) ∧
    (⟨chars "cats", chars "Cats", chars "", mkRat 1 2⟩ : SuggestedLink) ∈
      (filterLinks (mkRat 7 10)
        [⟨chars "cats", chars "Cats", chars "", mkRat 1 2⟩]
        (chars "I love cats.") [chars "Cats"]).2 :=
  ⟨by decide,
   (@confidence_threshold_monotone (mkRat 1 2) (mkRat 7 10)
     (by decide)).2.2.1 _ _ _ _ (by decide) (by decide)⟩

/-- Claim C9, amended: `parseAnalysisResponse` extracts the span from the
first opening brace to the last closing brace of the response; whenever no
such span exists or that span fails to parse as JSON, it returns the empty
result instead of propagating an error. -/
theorem parse_failure_empty (text : List Char)
    (h : ∀ span, extractSpan text = some span → runParse span = none) :
    parseAnalysisResponse text = emptyResult := by
  unfold parseAnalysisResponse
  cases he : extractSpan text with
  | none => rfl
  | some span =>
    dsimp only
    rw [h span he]

/-- Witness for the amended claim C9: a response with no structured block
at all yields the empty result. -/
theorem parse_failure_empty_witness :
    parseAnalysisResponse (chars "no structured output") = emptyResult :=
  parse_failure_empty _ (fun span hspan => by
    rw [show extractSpan (chars "no structured output") = none from
      by decide] at hspan
    exact Option.noConfusion hspan)

/-- Claim C9, counterexample: the parser does not extract the first
well-formed structured block.  The block at the head of
`\x7b"summary":"hi"\x7d trailing \x7d` is well-formed JSON (first conjunct)
and on its own yields summary `hi` (second conjunct), but because the regex
span runs greedily from the first opening brace to the last closing brace,
the whole response degrades to the empty result (third conjunct). -/
theorem C9_counterexample :
    (runParse (chars "\x7b\"summary\":\"hi\"\x7d")).isSome = true ∧
    (parseAnalysisResponse (chars "\x7b\"summary\":\"hi\"\x7d")).summary =
      chars "hi" ∧
    (parseAnalysisResponse
      (chars "\x7b\"summary\":\"hi\"\x7d trailing \x7d")).summary = [] :=
  ⟨by decide, by decide, by decide⟩

/-- The clamp stays inside the unit interval. -/
theorem jClamp_range (q : ℚ) : 0 ≤ jClamp q ∧ jClamp q ≤ 1 :=
  ⟨le_min zero_le_one (le_max_left 0 q), min_le_left 1 _⟩

/-- Claim C10: shape normalisation at the oracle boundary.  For every
parsed value, `validateLink` and `validateTag` clamp the returned
confidence into the unit interval; when the `confidence` field is absent or
not a number the confidence defaults to 0.5; missing text fields default to
the empty string; and a `location` that is absent or any string other than
`inline` defaults to `frontmatter`. -/
theorem validate_shape (j : Json) :
    (0 ≤ (validateLink j).confidence ∧ (validateLink j).confidence ≤ 1) ∧
    (0 ≤ (validateTag j).confidence ∧ (validateTag j).confidence ≤ 1) ∧
    ((∀ q : ℚ, ¬ getField j (chars "confidence") = some (Json.num q)) →
      (validateLink j).confidence = mkRat 1 2 ∧
      (validateTag j).confidence = mkRat 1 2) ∧
    ((getField j (chars "targetText") = none →
        (validateLink j).targetText = []) ∧
     (getField j (chars "tag") = none → (validateTag j).tag = [])) ∧
    (∀ s, getField j (chars "location") = some (Json.jstr s) →
      ¬ s = chars "inline" → (validateTag j).location = TagLoc.frontmatter) ∧
    (getField j (chars "location") = none →
      (validateTag j).location = TagLoc.frontmatter) := by
  have hconfL : (validateLink j).confidence =
      jClamp (match getField j (chars "confidence") with
        | some (Json.num q) => q
        | _ => mkRat 1 2) := rfl
  have hconfT : (validateTag j).confidence =
      jClamp (match getField j (chars "confidence") with
        | some (Json.num q) => q
        | _ => mkRat 1 2) := rfl
  have hlocT : (validateTag j).location =
      (match getField j (chars "location") with
        | some (Json.jstr s) =>
          if s = chars "inline" then TagLoc.inline_ else TagLoc.frontmatter
        | _ => TagLoc.frontmatter) := rfl
  refine ⟨?_, ?_, ?_, ⟨?_, ?_⟩, ?_, ?_⟩
  · rw [hconfL]
    exact jClamp_range _
  · rw [hconfT]
    exact jClamp_range _
  · intro h
    have hdef : (match getField j (chars "confidence") with
        | some (Json.num q) => q
        | _ => mkRat 1 2) = mkRat 1 2 := by
      cases hg : getField j (chars "confidence") with
      | none => rfl
      | some v =>
        cases v with
        | num q => exact absurd hg (h q)
        | null => rfl
        | bool b => rfl
        | jstr s => rfl
        | arr xs => rfl
        | obj fs => rfl
    rw [hconfL, hconfT, hdef]
    constructor <;> decide
  · intro hg
    have : (validateLink j).targetText =
        (match getField j (chars "targetText") with
          | some (Json.jstr s) => s
          | _ => []) := rfl
    rw [this, hg]
  · intro hg
    have : (validateTag j).tag =
        (match getField j (chars "tag") with
          | some (Json.jstr s) => s
          | _ => []) := rfl
    rw [this, hg]
  · intro s hg hs
    rw [hlocT, hg]
    simp [hs]
  · intro hg
    rw [hlocT, hg]

/-- Witness for claim C10: a confidence of 1.5 is clamped below 1, and a
`location` string other than `inline` falls back to the frontmatter
location. -/
theorem validate_shape_witness :
    (validateLink (Json.obj
      [(chars "confidence", Json.num (mkRat 3 2))])).confidence ≤ 1 ∧
    (validateTag (Json.obj
      [(chars "location", Json.jstr (chars "header"))])).location =
      TagLoc.frontmatter :=
  ⟨(validate_shape _).1.2,
   (validate_shape _).2.2.2.2.1 (chars "header") rfl (by decide)⟩
